import Mathlib

/-!
# EIA bronze ingestion — verification of the fetch/normalize core

Shallow embedding of `src/eia_bronze_ingestion.py`: the paginated fetcher
`fetch_eia_electricity_demand`, the driving loop over `REGIONS`, and the
`df_bronze` normalization, together with theorems settling the spec claims.

The unbounded `while True` loop of the source is embedded with an explicit
`fuel` argument; a result of `none` means the loop was still iterating after
`fuel` requests, so termination of the source loop is `∃ fuel, (… fuel).isSome`.
-/

namespace EIA

/-- One raw record returned by the EIA API.  Field names follow the JSON keys
`period`, `respondent`, `respondent-name`, `type`, `type-name`, `value`,
`value-units`; the hyphens and the reserved word `type` are renamed to legal
Lean identifiers. -/
structure RawRecord where
  period : String
  respondent : String
  respondent_name : String
  typ : String
  type_name : String
  value : String
  value_units : String
  deriving DecidableEq, Repr

/-- The query parameters of one page request: the `params` dict of the source
with the constant entries (`frequency`, `data[0]`, `facets[type][]`, the sort
keys) left implicit and the varying ones explicit.  The loop always sends
`pageLength = 5000`. -/
structure Request where
  api_key : String
  region : String
  start_date : String
  end_date : String
  offset : Nat
  pageLength : Nat
  deriving DecidableEq, Repr

/-- One HTTP response body as the fetch loop inspects it:
* `notJson` — the body is not valid JSON, so `response.json()` raises;
* `missingContainer` — the decoded JSON lacks the `response` key, or
  `response` lacks the `data` key (the source prints "No data found" and
  breaks);
* `wellFormed data total` — `response.data` is present and holds `data`;
  `total` is `some t` when `int(response.total)` yields `t`, and `none` when
  the `total` field is missing or not convertible, in which case
  `int(json_data["response"]["total"])` raises. -/
inductive Body where
  | notJson : Body
  | missingContainer : Body
  | wellFormed : List RawRecord → Option Int → Body
  deriving DecidableEq, Repr

/-- An HTTP response: status code plus body. -/
structure ApiResponse where
  status : Nat
  body : Body
  deriving DecidableEq, Repr

/-- An uncaught Python exception escaping `fetch_eia_electricity_demand`:
`requests` raising on a malformed JSON body, or `KeyError`/`ValueError` from
`int(json_data["response"]["total"])`. -/
inductive PyError where
  | jsonDecodeError : PyError
  | totalError : PyError
  deriving DecidableEq, Repr

/-- Outcome of one fetch call: a normal return of the accumulated records, or
an uncaught exception propagating to the caller. -/
inductive FetchResult where
  | ok : List RawRecord → FetchResult
  | raised : PyError → FetchResult
  deriving DecidableEq, Repr

/-- The `while True` loop of `fetch_eia_electricity_demand`.  `offset` and
`acc` are the mutable source variables `params["offset"]` and `all_data`; `trace`
records, for each request issued, the pair (offset sent, number of records
accumulated before the request) — pure instrumentation, it influences
nothing.  `fuel` bounds the number of iterations; `none` means the loop was
still running after `fuel` requests.  Faithful to the source order: status
check, JSON decode, container check, extend, total read, stop test, and
`params["offset"] += 5000`. -/
def fetchAux (server : Request → ApiResponse)
    (api_key region start_date end_date : String) :
    Nat → Nat → List RawRecord → List (Nat × Nat) →
      Option (FetchResult × List (Nat × Nat))
  | 0, _, _, _ => none
  | fuel + 1, offset, acc, trace =>
    let resp := server ⟨api_key, region, start_date, end_date, offset, 5000⟩
    let trace1 := trace ++ [(offset, acc.length)]
    if resp.status ≠ 200 then
      some (.ok acc, trace1)
    else
      match resp.body with
      | .notJson => some (.raised .jsonDecodeError, trace1)
      | .missingContainer => some (.ok acc, trace1)
      | .wellFormed data total =>
        let acc1 := acc ++ data
        match total with
        | none => some (.raised .totalError, trace1)
        | some t =>
          if (acc1.length : Int) ≥ t then some (.ok acc1, trace1)
          else fetchAux server api_key region start_date end_date fuel
            (offset + 5000) acc1 trace1

/-- The fetch loop from its entry state: offset 0, empty accumulator. -/
def fetchTrace (server : Request → ApiResponse)
    (api_key region start_date end_date : String) (fuel : Nat) :
    Option (FetchResult × List (Nat × Nat)) :=
  fetchAux server api_key region start_date end_date fuel 0 [] []

/-- `fetch_eia_electricity_demand` of the source: the pagination loop run from
offset 0 with an empty `all_data`, returning the accumulated records (the
request trace is instrumentation only). -/
def fetch_eia_electricity_demand (server : Request → ApiResponse)
    (api_key region start_date end_date : String) (fuel : Nat) :
    Option FetchResult :=
  (fetchTrace server api_key region start_date end_date fuel).map Prod.fst

/-- The source loop terminates for this server and query. -/
def fetchTerminates (server : Request → ApiResponse)
    (api_key region start_date end_date : String) : Prop :=
  ∃ fuel, (fetchTrace server api_key region start_date end_date fuel).isSome

/-- The configured balancing-authority regions of the source. -/
def REGIONS : List String :=
  ["PJM", "CISO", "MISO", "ERCO", "SWPP", "NYIS", "ISNE", "BPAT", "FPL", "TVA"]

/-- The driving loop `for region in REGIONS: … all_region_data.extend(…)`.
`servers` gives each region its server behaviour.  An exception raised inside
a fetch propagates and aborts the run (`Except.error`); `none` models a fetch
still paginating after `fuel` iterations. -/
def ingestAll (servers : String → Request → ApiResponse)
    (api_key start_date end_date : String) (fuel : Nat) :
    List String → Option (Except PyError (List RawRecord))
  | [] => some (.ok [])
  | region :: rest =>
    match fetch_eia_electricity_demand (servers region) api_key region
        start_date end_date fuel with
    | none => none
    | some (.raised e) => some (.error e)
    | some (.ok recs) =>
      match ingestAll servers api_key start_date end_date fuel rest with
      | none => none
      | some (.error e) => some (.error e)
      | some (.ok more) => some (.ok (recs ++ more))

/-- A server that slices a fixed record list into pages: offset `o` is
answered with records `o, …, o + pageLength - 1` and the length of the list as the
reported total — the well-behaved API of the spec. -/
def sliceServer (recs : List RawRecord) : Request → ApiResponse :=
  fun req =>
    ⟨200, .wellFormed ((recs.drop req.offset).take req.pageLength)
      (some recs.length)⟩

/-- A sample record in the shape the EIA API returns. -/
def sampleRecord : RawRecord :=
  ⟨"20240115", "PJM", "PJM Interconnection, LLC", "D", "Demand",
    "12345.6", "megawatthours"⟩

/-! ## Record normalizer (`df_bronze`)

`df_bronze` adds a `date` column (three-way parse of `period` by length), a
`demand_mwh` column (`value` cast to double), audit columns, and projects the
renamed fields.  Dates are embedded as year/month/day triples and the double
cast over `ℚ`; both parsers return `none` where Spark yields null. -/

/-- A calendar date (proleptic Gregorian, as the Spark date type). -/
structure Date where
  year : Nat
  month : Nat
  day : Nat
  deriving DecidableEq, Repr

def isLeapYear (y : Nat) : Bool :=
  (y % 4 == 0 && y % 100 != 0) || y % 400 == 0

def daysInMonth (y m : Nat) : Nat :=
  if m = 2 then (if isLeapYear y then 29 else 28)
  else if m = 4 ∨ m = 6 ∨ m = 9 ∨ m = 11 then 30
  else 31

/-- A valid calendar date with a positive year of era (the strict Spark
`DateTimeFormatter` rejects year-of-era 0). -/
def validDate (y m d : Nat) : Bool :=
  decide (1 ≤ y) && decide (1 ≤ m) && decide (m ≤ 12) && decide (1 ≤ d) &&
    decide (d ≤ daysInMonth y m)

def digitVal (c : Char) : Nat := c.toNat - 48

def digitsToNat (cs : List Char) : Nat :=
  cs.foldl (fun a c => 10 * a + digitVal c) 0

/-- All characters are decimal digits. -/
def allDigits (cs : List Char) : Bool := cs.all Char.isDigit

/-- A character removed by Java `String.trim`: every code point up to
U+0020 - control characters included, not just spaces and tabs. -/
def isJavaSpace (c : Char) : Bool := decide (c.toNat ≤ 32)

/-- Strip leading and trailing code points up to U+0020, the `trim` that both
Java `Double.parseDouble` and the Spark special-literal fallback apply;
embedded structurally over the character list so the kernel can evaluate
it. -/
def trimChars (cs : List Char) : List Char :=
  ((cs.dropWhile isJavaSpace).reverse.dropWhile isJavaSpace).reverse

/-- A hexadecimal digit: `0`-`9`, `a`-`f`, `A`-`F`. -/
def isHexDigit (c : Char) : Bool :=
  c.isDigit || ('a' ≤ c && c ≤ 'f') || ('A' ≤ c && c ≤ 'F')

/-- Split on `-` separators, like `String.splitOn "-"`: `[]` between two
adjacent dashes, one (possibly empty) segment more than there are dashes. -/
def splitDashes (cs : List Char) : List (List Char) :=
  match cs with
  | [] => [[]]
  | c :: rest =>
    if c == '-' then [] :: splitDashes rest
    else
      match splitDashes rest with
      | [] => [[c]]
      | seg :: segs => (c :: seg) :: segs

/-- `F.to_date(period, "yyyyMMdd")` on an 8-character string: all characters
must be digits and the digits a valid calendar date, else Spark yields null
(default `CORRECTED` parser policy). -/
def parseDate8 (s : String) : Option Date :=
  match s.data with
  | [y1, y2, y3, y4, m1, m2, d1, d2] =>
    if [y1, y2, y3, y4, m1, m2, d1, d2].all Char.isDigit then
      let y := digitsToNat [y1, y2, y3, y4]
      let m := digitsToNat [m1, m2]
      let d := digitsToNat [d1, d2]
      if validDate y m d then some ⟨y, m, d⟩ else none
    else none
  | _ => none

/-- `F.to_date(period, "yyyy-MM-dd")` on a 10-character string. -/
def parseDate10 (s : String) : Option Date :=
  match s.data with
  | [y1, y2, y3, y4, h1, m1, m2, h2, d1, d2] =>
    if h1 = '-' ∧ h2 = '-' ∧ [y1, y2, y3, y4, m1, m2, d1, d2].all Char.isDigit then
      let y := digitsToNat [y1, y2, y3, y4]
      let m := digitsToNat [m1, m2]
      let d := digitsToNat [d1, d2]
      if validDate y m d then some ⟨y, m, d⟩ else none
    else none
  | _ => none

/-- Build a date from year/month/day digit segments (month and day segments
of one or two digits, year of four). -/
def mkDateSegs (y m d : List Char) : Option Date :=
  if y.length = 4 ∧ allDigits y = true
      ∧ 1 ≤ m.length ∧ m.length ≤ 2 ∧ allDigits m = true
      ∧ 1 ≤ d.length ∧ d.length ≤ 2 ∧ allDigits d = true then
    let yn := digitsToNat y
    let mn := digitsToNat m
    let dn := digitsToNat d
    if validDate yn mn dn then some ⟨yn, mn, dn⟩ else none
  else none

/-- `F.to_date(period)` without a format — the Spark string→date cast
(`DateTimeUtils.stringToDate`): a trimmed `yyyy[-m[m][-d[d]]]`, where a
remainder beginning with a space or `T` is allowed only after a full
three-segment date; missing month/day default to 1.  Modelled for
non-negative 4-digit years. -/
def castToDate (s : String) : Option Date :=
  let t := trimChars s.data
  let datePart := t.takeWhile (fun c => !(c == ' ' || c == 'T'))
  let rest := t.drop datePart.length
  match splitDashes datePart with
  | [y] => if rest.isEmpty then mkDateSegs y ['1'] ['1'] else none
  | [y, m] => if rest.isEmpty then mkDateSegs y m ['1'] else none
  | [y, m, d] => mkDateSegs y m d
  | _ => none

/-- The `date` column of `df_bronze`:
`F.when(F.length("period") == 8, F.to_date("period", "yyyyMMdd"))
 .when(F.length("period") == 10, F.to_date("period", "yyyy-MM-dd"))
 .otherwise(F.to_date("period"))`. -/
def parseDate (period : String) : Option Date :=
  if period.length = 8 then parseDate8 period
  else if period.length = 10 then parseDate10 period
  else castToDate period

/-- Consume an optional leading sign; `true` means negative. -/
def parseSign (cs : List Char) : Bool × List Char :=
  match cs with
  | [] => (false, [])
  | c :: rest =>
    if c == '-' then (true, rest)
    else if c == '+' then (false, rest)
    else (false, c :: rest)

/-- Value of a decimal digit block `ds` with fraction block `fs`. -/
def mantissaVal (ds fs : List Char) : ℚ :=
  (digitsToNat ds : ℚ) + (digitsToNat fs : ℚ) / (10 : ℚ) ^ fs.length

/-- Consume `Digits`, `Digits . Digits?` or `. Digits`; return the value and
the unconsumed remainder. -/
def parseMantissa (cs : List Char) : Option (ℚ × List Char) :=
  let ip := cs.takeWhile Char.isDigit
  let r1 := cs.dropWhile Char.isDigit
  match r1 with
  | c :: r2 =>
    if c == '.' then
      let fp := r2.takeWhile Char.isDigit
      let r3 := r2.dropWhile Char.isDigit
      if ip.isEmpty && fp.isEmpty then none
      else some (mantissaVal ip fp, r3)
    else if ip.isEmpty then none else some ((digitsToNat ip : ℚ), r1)
  | [] => if ip.isEmpty then none else some ((digitsToNat ip : ℚ), [])

/-- Consume an optional exponent part `(e|E) sign? Digits`; return the signed
exponent and the unconsumed remainder. -/
def parseExp (cs : List Char) : Option (Int × List Char) :=
  match cs with
  | [] => some (0, [])
  | c :: rest =>
    if c == 'e' || c == 'E' then
      let (neg, r1) := parseSign rest
      let ds := r1.takeWhile Char.isDigit
      let r2 := r1.dropWhile Char.isDigit
      if ds.isEmpty then none
      else
        some ((if neg then -(digitsToNat ds : Int) else (digitsToNat ds : Int)), r2)
    else some (0, c :: rest)

/-- A Java float type suffix character. -/
def isFloatSuffix (c : Char) : Bool :=
  c == 'd' || c == 'D' || c == 'f' || c == 'F'

/-- The remainder after mantissa and exponent: empty, or one type suffix. -/
def parseTail (cs : List Char) : Bool :=
  match cs with
  | [] => true
  | [c] => isFloatSuffix c
  | _ => false

/-- An unsigned decimal floating literal of Java `Double.parseDouble`:
mantissa, optional exponent, optional float type suffix, nothing after. -/
def parseDecimal (cs : List Char) : Option ℚ :=
  match parseMantissa cs with
  | none => none
  | some (m, r1) =>
    match parseExp r1 with
    | none => none
    | some (e, r2) =>
      if parseTail r2 then some (m * (10 : ℚ) ^ e) else none

def hexDigitVal (c : Char) : Nat :=
  if c.isDigit then c.toNat - 48
  else if 'a' ≤ c ∧ c ≤ 'f' then c.toNat - 87
  else c.toNat - 55

def hexDigitsToNat (cs : List Char) : Nat :=
  cs.foldl (fun a c => 16 * a + hexDigitVal c) 0

/-- All characters are hexadecimal digits. -/
def allHexDigits (cs : List Char) : Bool := cs.all isHexDigit

/-- Value of a hexadecimal digit block `ds` with hexadecimal fraction block
`fs`. -/
def hexMantissaVal (ds fs : List Char) : ℚ :=
  (hexDigitsToNat ds : ℚ) + (hexDigitsToNat fs : ℚ) / (16 : ℚ) ^ fs.length

/-- The mandatory binary exponent of a Java hexadecimal floating literal:
`(p|P) sign? Digits`, then an optional float type suffix and the end. -/
def parseBinExp (cs : List Char) : Option Int :=
  match cs with
  | [] => none
  | c :: rest =>
    if c == 'p' || c == 'P' then
      let (neg, r1) := parseSign rest
      let ds := r1.takeWhile Char.isDigit
      let r2 := r1.dropWhile Char.isDigit
      if ds.isEmpty then none
      else if parseTail r2 then
        some (if neg then -(digitsToNat ds : Int) else (digitsToNat ds : Int))
      else none
    else none

/-- An unsigned hexadecimal floating literal of Java `Double.parseDouble`:
`0x`/`0X`, hexadecimal digits with an optional point (at least one digit),
and a mandatory binary exponent. -/
def parseHexFloat (cs : List Char) : Option ℚ :=
  match cs with
  | z :: x :: rest =>
    if z == '0' && (x == 'x' || x == 'X') then
      let ip := rest.takeWhile isHexDigit
      let r1 := rest.dropWhile isHexDigit
      match r1 with
      | c :: r2 =>
        if c == '.' then
          let fp := r2.takeWhile isHexDigit
          let r3 := r2.dropWhile isHexDigit
          if ip.isEmpty && fp.isEmpty then none
          else (parseBinExp r3).map fun e => hexMantissaVal ip fp * (2 : ℚ) ^ e
        else if ip.isEmpty then none
        else (parseBinExp r1).map fun e =>
          (hexDigitsToNat ip : ℚ) * (2 : ℚ) ^ e
      | [] => none
    else none
  | _ => none

/-- A double as far as the cast distinguishes it: an exact rational for a
finite literal (the further IEEE rounding to the nearest double is outside
the model), or one of the special values. -/
inductive DoubleVal where
  | finite : ℚ → DoubleVal
  | posInf : DoubleVal
  | negInf : DoubleVal
  | nan : DoubleVal
  deriving DecidableEq, Repr

/-- Java `Double.parseDouble`: trim every code point up to U+0020, an
optional sign, then the literal `NaN`, the literal `Infinity`, a decimal
floating literal, or a hexadecimal floating literal; anything else raises
`NumberFormatException` (modelled as `none`). -/
def javaParseDouble (s : String) : Option DoubleVal :=
  let (neg, cs1) := parseSign (trimChars s.data)
  if cs1 = ['N', 'a', 'N'] then some .nan
  else if cs1 = ['I', 'n', 'f', 'i', 'n', 'i', 't', 'y'] then
    some (if neg then .negInf else .posInf)
  else
    match parseDecimal cs1 with
    | some q => some (.finite (if neg then -q else q))
    | none =>
      match parseHexFloat cs1 with
      | some q => some (.finite (if neg then -q else q))
      | none => none

/-- The Spark fallback run when the Java parse raises
(`Cast.processFloatingPointSpecialLiterals`): trim, lowercase, and match one
of `inf`, `+inf`, `infinity`, `+infinity`, `-inf`, `-infinity`, `nan`.  Only
ASCII letters can take part in a match, so the ASCII `Char.toLower` is a
faithful rendering of the locale-root lowercasing here. -/
def specialLiteral (s : String) : Option DoubleVal :=
  let t := (trimChars s.data).map Char.toLower
  if t = "inf".data ∨ t = "+inf".data ∨ t = "infinity".data ∨
      t = "+infinity".data then some .posInf
  else if t = "-inf".data ∨ t = "-infinity".data then some .negInf
  else if t = "nan".data then some .nan
  else none

/-- `F.col("value").cast("double")` (non-ANSI): Spark runs the Java double
parse on the string and, when that raises, the case-insensitive
special-literal fallback; if both fail the cast yields null. -/
def parseDouble (s : String) : Option DoubleVal :=
  match javaParseDouble s with
  | some v => some v
  | none => specialLiteral s

/-- A sign block: empty or a single `+`/`-`. -/
def SignShape (cs : List Char) : Prop := cs = [] ∨ cs = ['-'] ∨ cs = ['+']

/-- The mantissa grammar of Java `Double.parseDouble`:
`Digits`, or `Digits . Digits?`, or `. Digits`. -/
def MantShape (m : List Char) : Prop :=
  (m ≠ [] ∧ allDigits m) ∨
    ∃ ip fp, m = ip ++ '.' :: fp ∧ allDigits ip = true ∧ allDigits fp = true ∧
      (ip ≠ [] ∨ fp ≠ [])

/-- An exponent block: empty, or `(e|E) sign? Digits`. -/
def ExpShape (cs : List Char) : Prop :=
  match cs with
  | [] => True
  | c :: rest =>
    (c = 'e' ∨ c = 'E') ∧
      ∃ sgn ds, rest = sgn ++ ds ∧ SignShape sgn ∧ ds ≠ [] ∧ allDigits ds = true

/-- A tail block: empty, or one float type suffix. -/
def TailShape (cs : List Char) : Prop :=
  cs = [] ∨ ∃ c, cs = [c] ∧ isFloatSuffix c = true

/-- A decimal floating literal: after trimming, an optional sign, a mantissa,
an optional exponent and an optional float type suffix. -/
def DecimalShape (s : String) : Prop :=
  ∃ sgn mant ex tl, trimChars s.data = sgn ++ (mant ++ (ex ++ tl)) ∧
    SignShape sgn ∧ MantShape mant ∧ ExpShape ex ∧ TailShape tl

/-- The Java special literals: an optional sign followed by exactly `NaN` or
exactly `Infinity` (case-sensitive, no suffix). -/
def SpecialShape (s : String) : Prop :=
  ∃ sgn, SignShape sgn ∧
    (trimChars s.data = sgn ++ ['N', 'a', 'N'] ∨
      trimChars s.data = sgn ++ ['I', 'n', 'f', 'i', 'n', 'i', 't', 'y'])

/-- The hexadecimal-mantissa grammar of Java `Double.parseDouble`:
`HexDigits`, or `HexDigits . HexDigits?`, or `. HexDigits`. -/
def HexMantShape (m : List Char) : Prop :=
  (m ≠ [] ∧ allHexDigits m = true) ∨
    ∃ ip fp, m = ip ++ '.' :: fp ∧ allHexDigits ip = true ∧
      allHexDigits fp = true ∧ (ip ≠ [] ∨ fp ≠ [])

/-- A mandatory binary-exponent block: `(p|P) sign? Digits`, then an optional
float type suffix, consuming the rest of the string. -/
def BinExpShape (cs : List Char) : Prop :=
  match cs with
  | [] => False
  | c :: rest =>
    (c = 'p' ∨ c = 'P') ∧ ∃ sgn ds tl, rest = sgn ++ (ds ++ tl) ∧
      SignShape sgn ∧ ds ≠ [] ∧ allDigits ds = true ∧ TailShape tl

/-- A hexadecimal floating literal: after trimming, an optional sign, a
`0x`/`0X` marker, a hexadecimal mantissa and a binary exponent. -/
def HexShape (s : String) : Prop :=
  ∃ sgn pre mant ex, trimChars s.data = sgn ++ (pre ++ (mant ++ ex)) ∧
    SignShape sgn ∧ (pre = ['0', 'x'] ∨ pre = ['0', 'X']) ∧
    HexMantShape mant ∧ BinExpShape ex

/-- The special literals of the Spark fallback, matched case-insensitively
after trimming. -/
def SparkSpecialShape (s : String) : Prop :=
  let t := (trimChars s.data).map Char.toLower
  (t = "inf".data ∨ t = "+inf".data ∨ t = "infinity".data ∨
    t = "+infinity".data) ∨
  (t = "-inf".data ∨ t = "-infinity".data) ∨ t = "nan".data

/-- Independent grammar for the strings on which the double cast yields a
non-null value: a decimal literal, a Java special literal, a hexadecimal
literal, or a Spark special literal. -/
def NumericShape (s : String) : Prop :=
  DecimalShape s ∨ SpecialShape s ∨ HexShape s ∨ SparkSpecialShape s

/-- One row of the bronze table: the `select` of `df_bronze`.  The source
columns `_ingested_at` and `_source` are `ingested_at` and `source` here
(leading underscores dropped for Lean); the run timestamp is opaque. -/
structure NormalizedRecord where
  date : Option Date
  region_code : String
  region_name : String
  data_type : String
  data_type_name : String
  demand_mwh : Option DoubleVal
  units : String
  ingested_at : Nat
  source : String
  deriving DecidableEq, Repr

/-- The per-row mapping of `df_bronze`: parse `period` into `date`, cast
`value` to `demand_mwh`, stamp the audit columns, rename and project.  A pure
total function — parse failures surface as `none` fields, never as errors. -/
def normalizeRecord (ts : Nat) (r : RawRecord) : NormalizedRecord :=
  { date := parseDate r.period
    region_code := r.respondent
    region_name := r.respondent_name
    data_type := r.typ
    data_type_name := r.type_name
    demand_mwh := parseDouble r.value
    units := r.value_units
    ingested_at := ts
    source := "eia_api" }

/-- The whole normalizer: one output row per input row, in input order
(`withColumn`/`select` are row-wise; no shuffle, no dedup, no sort). -/
def normalize (ts : Nat) (rs : List RawRecord) : List NormalizedRecord :=
  rs.map (normalizeRecord ts)

/-- Raw record with the given period and value and fixed remaining fields,
for concrete test inputs. -/
def mkRecord (p v : String) : RawRecord :=
  ⟨p, "PJM", "PJM Interconnection, LLC", "D", "Demand", v, "megawatthours"⟩

/-- The head, if any, is not a decimal digit. -/
def headNotDigit : List Char → Prop
  | [] => True
  | c :: _ => c.isDigit = false

/-- The head, if any, is neither `-` nor `+`. -/
def headNotSign : List Char → Prop
  | [] => True
  | c :: _ => c ≠ '-' ∧ c ≠ '+'

/-- The head, if any, is not `.`. -/
def headNotDot : List Char → Prop
  | [] => True
  | c :: _ => c ≠ '.'

/-- The head, if any, is not a hexadecimal digit. -/
def headNotHexDigit : List Char → Prop
  | [] => True
  | c :: _ => isHexDigit c = false

/-- Adversarial server: every page is well-formed with an empty `data` array
but reports one record available. -/
def emptyPageServer : Request → ApiResponse :=
  fun _ => ⟨200, .wellFormed [] (some 1)⟩

/-- Server answering every request with one record and total 1. -/
def oneRecordServer : Request → ApiResponse :=
  fun _ => ⟨200, .wellFormed [sampleRecord] (some 1)⟩

/-- Server whose first page has 3 records but reports 10 available; later
pages fail, ending the loop. -/
def shortPageServer : Request → ApiResponse :=
  fun req =>
    if req.offset = 0 then
      ⟨200, .wellFormed [mkRecord "20240101" "1", mkRecord "20240102" "2",
        mkRecord "20240103" "3"] (some 10)⟩
    else ⟨500, .notJson⟩

/-- Server whose pages carry `response.data` but no usable `response.total`. -/
def missingTotalServer : Request → ApiResponse :=
  fun _ => ⟨200, .wellFormed [sampleRecord] none⟩

/-- Server answering 200 with a body that is not JSON. -/
def badJsonServer : Request → ApiResponse :=
  fun _ => ⟨200, .notJson⟩

/-- Server answering 200 with a decoded body lacking `response.data`. -/
def noDataServer : Request → ApiResponse :=
  fun _ => ⟨200, .missingContainer⟩

/-- Server answering every request with HTTP 500. -/
def errorServer : Request → ApiResponse :=
  fun _ => ⟨500, .notJson⟩

/-- 5001 pairwise distinct records: one full page of 5000 plus one more. -/
def recs5001 : List RawRecord :=
  (List.range 5001).map fun i => mkRecord "20240115" (toString i)

/-- Two runs of the fetcher with identical arguments, in sequence — the
source keeps no state between calls (`params` and `all_data` are
reinitialised inside the function), so both calls denote the same value. -/
def fetchTwice (server : Request → ApiResponse)
    (api_key region start_date end_date : String) (fuel : Nat) :
    Option FetchResult × Option FetchResult :=
  (fetch_eia_electricity_demand server api_key region start_date end_date fuel,
   fetch_eia_electricity_demand server api_key region start_date end_date fuel)

/-! ## Lemmas about the double-cast parser -/

theorem digit_not_special {c : Char} (h : c.isDigit = true) :
    c ≠ '-' ∧ c ≠ '+' ∧ c ≠ '.' := by
  refine ⟨?_, ?_, ?_⟩ <;> rintro rfl <;> exact absurd h (by decide)

theorem floatSuffix_not_special {c : Char} (h : isFloatSuffix c = true) :
    c.isDigit = false ∧ c ≠ '-' ∧ c ≠ '+' ∧ c ≠ '.' ∧ c ≠ 'e' ∧ c ≠ 'E' := by
  have : c = 'd' ∨ c = 'D' ∨ c = 'f' ∨ c = 'F' := by
    have h2 : ((c = 'd' ∨ c = 'D') ∨ c = 'f') ∨ c = 'F' := by
      simpa [isFloatSuffix] using h
    tauto
  rcases this with rfl | rfl | rfl | rfl <;> exact ⟨by decide, by decide,
    by decide, by decide, by decide, by decide⟩

theorem takeWhile_digits_of_append : ∀ (ds rest : List Char),
    allDigits ds = true → headNotDigit rest →
    (ds ++ rest).takeWhile Char.isDigit = ds ∧
      (ds ++ rest).dropWhile Char.isDigit = rest
  | [], rest, _, h2 => by
    cases rest with
    | nil => simp
    | cons c r =>
      simp only [headNotDigit] at h2
      simp [List.takeWhile_cons_of_neg, List.dropWhile_cons_of_neg, h2]
  | d :: ds, rest, h, h2 => by
    simp only [allDigits, List.all_cons, Bool.and_eq_true] at h
    have ih := takeWhile_digits_of_append ds rest h.2 h2
    simp only [List.cons_append, List.takeWhile_cons_of_pos h.1,
      List.dropWhile_cons_of_pos h.1, ih.1, ih.2, and_self]

theorem headNotDigit_dropWhile (cs : List Char) :
    headNotDigit (cs.dropWhile Char.isDigit) := by
  have h := List.head?_dropWhile_not Char.isDigit cs
  cases hd : cs.dropWhile Char.isDigit with
  | nil => trivial
  | cons c r =>
    rw [hd] at h
    simpa [headNotDigit] using h

theorem parseSign_split (cs : List Char) :
    ∃ sgn, SignShape sgn ∧ cs = sgn ++ (parseSign cs).2 := by
  match cs with
  | [] => exact ⟨[], Or.inl rfl, rfl⟩
  | c :: rest =>
    by_cases h1 : c = '-'
    · subst h1
      exact ⟨['-'], Or.inr (Or.inl rfl), by simp [parseSign]⟩
    · by_cases h2 : c = '+'
      · subst h2
        exact ⟨['+'], Or.inr (Or.inr rfl), by simp [parseSign]⟩
      · exact ⟨[], Or.inl rfl, by simp [parseSign, h1, h2]⟩

theorem parseSign_of_append (sgn rest : List Char) (hs : SignShape sgn)
    (hr : headNotSign rest) : ∃ b, parseSign (sgn ++ rest) = (b, rest) := by
  rcases hs with rfl | rfl | rfl
  · cases rest with
    | nil => exact ⟨false, rfl⟩
    | cons c r =>
      simp only [headNotSign] at hr
      exact ⟨false, by simp [parseSign, hr.1, hr.2]⟩
  · exact ⟨true, by simp [parseSign]⟩
  · exact ⟨false, by simp [parseSign]⟩

theorem parseMantissa_split (cs : List Char) (m : ℚ) (r : List Char)
    (h : parseMantissa cs = some (m, r)) :
    ∃ mant, MantShape mant ∧ cs = mant ++ r := by
  have hcs := List.takeWhile_append_dropWhile Char.isDigit cs
  have hipd : allDigits (cs.takeWhile Char.isDigit) = true := List.all_takeWhile
  simp only [parseMantissa] at h
  split at h
  case _ c r2 heq =>
    rw [heq] at hcs
    split at h
    case isTrue hc =>
      have hc' : c = '.' := by simpa using hc
      subst hc'
      split at h
      case isTrue => exact absurd h (by simp)
      case isFalse hg =>
        simp only [Option.some.injEq, Prod.mk.injEq] at h
        obtain ⟨-, hr⟩ := h
        refine ⟨cs.takeWhile Char.isDigit ++ '.' :: r2.takeWhile Char.isDigit,
          Or.inr ⟨_, _, rfl, hipd, List.all_takeWhile, ?_⟩, ?_⟩
        · rcases Bool.and_eq_false_iff.1 (Bool.not_eq_true _ ▸ hg) with h1 | h1
          · exact Or.inl (by simpa [List.isEmpty_iff] using h1)
          · exact Or.inr (by simpa [List.isEmpty_iff] using h1)
        · rw [← hr, List.append_assoc, List.cons_append,
            List.takeWhile_append_dropWhile]
          exact hcs.symm
    case isFalse hc =>
      split at h
      case isTrue => exact absurd h (by simp)
      case isFalse hg =>
        simp only [Option.some.injEq, Prod.mk.injEq] at h
        obtain ⟨-, hr⟩ := h
        refine ⟨cs.takeWhile Char.isDigit,
          Or.inl ⟨by simpa [List.isEmpty_iff] using hg, hipd⟩, ?_⟩
        rw [← hr]
        exact (List.takeWhile_append_dropWhile Char.isDigit cs).symm
  case _ heq =>
    rw [heq] at hcs
    split at h
    case isTrue => exact absurd h (by simp)
    case isFalse hg =>
      simp only [Option.some.injEq, Prod.mk.injEq] at h
      obtain ⟨-, hr⟩ := h
      refine ⟨cs.takeWhile Char.isDigit,
        Or.inl ⟨by simpa [List.isEmpty_iff] using hg, hipd⟩, ?_⟩
      rw [← hr]
      simpa using hcs.symm

theorem parseMantissa_of_append (mant rest : List Char) (hm : MantShape mant)
    (h1 : headNotDigit rest) (h2 : headNotDot rest) :
    ∃ v, parseMantissa (mant ++ rest) = some (v, rest) := by
  have hie : ∀ l : List Char, l ≠ [] → l.isEmpty = false := by
    intro l hl
    cases l with
    | nil => exact absurd rfl hl
    | cons a r => rfl
  rcases hm with ⟨hne, hdig⟩ | ⟨ip, fp, rfl, hip, hfp, hor⟩
  · obtain ⟨htw, hdw⟩ := takeWhile_digits_of_append mant rest hdig h1
    refine ⟨(digitsToNat mant : ℚ), ?_⟩
    cases rest with
    | nil =>
      rw [List.append_nil] at htw hdw ⊢
      simp only [parseMantissa, htw, hdw, hie mant hne]
      simp
    | cons c r =>
      simp only [headNotDot] at h2
      have hc : (c == '.') = false := by simpa using h2
      simp only [parseMantissa, htw, hdw, hc, hie mant hne]
      simp
  · have hnd : headNotDigit ('.' :: (fp ++ rest)) := by
      show ('.').isDigit = false
      decide
    obtain ⟨htw, hdw⟩ :=
      takeWhile_digits_of_append ip ('.' :: (fp ++ rest)) hip hnd
    obtain ⟨htw2, hdw2⟩ := takeWhile_digits_of_append fp rest hfp h1
    refine ⟨mantissaVal ip fp, ?_⟩
    have harr : (ip ++ '.' :: fp) ++ rest = ip ++ ('.' :: (fp ++ rest)) := by
      simp
    rw [harr]
    have hg : (ip.isEmpty && fp.isEmpty) = false := by
      rcases hor with h | h
      · simp [hie ip h]
      · simp [hie fp h]
    simp [parseMantissa, htw, hdw, htw2, hdw2, hg, mantissaVal]

theorem parseExp_split (cs : List Char) (e : Int) (r2 : List Char)
    (h : parseExp cs = some (e, r2)) : ∃ ex, ExpShape ex ∧ cs = ex ++ r2 := by
  match cs with
  | [] =>
    simp only [parseExp, Option.some.injEq, Prod.mk.injEq] at h
    exact ⟨[], trivial, by simp [h.2]⟩
  | c :: rest =>
    simp only [parseExp] at h
    split at h
    case isTrue hce =>
      rcases hps : parseSign rest with ⟨neg, r1⟩
      rw [hps] at h
      simp only at h
      split at h
      case isTrue => exact absurd h (by simp)
      case isFalse hg =>
        simp only [Option.some.injEq, Prod.mk.injEq] at h
        obtain ⟨-, hr⟩ := h
        obtain ⟨sgn, hsgn, hrest⟩ := parseSign_split rest
        rw [hps] at hrest
        refine ⟨c :: (sgn ++ r1.takeWhile Char.isDigit), ?_, ?_⟩
        · show (c = 'e' ∨ c = 'E') ∧ _
          refine ⟨by simpa using hce,
            ⟨sgn, r1.takeWhile Char.isDigit, rfl, hsgn,
              by simpa [List.isEmpty_iff] using hg, List.all_takeWhile⟩⟩
        · rw [← hr]
          simp only [List.cons_append, List.cons.injEq, true_and, hrest,
            List.append_assoc, List.takeWhile_append_dropWhile]
    case isFalse hce =>
      simp only [Option.some.injEq, Prod.mk.injEq] at h
      exact ⟨[], trivial, by simp [← h.2]⟩

theorem parseExp_tail (tl : List Char) (ht : TailShape tl) :
    parseExp tl = some (0, tl) ∧ headNotDigit tl ∧ headNotSign tl ∧
      headNotDot tl := by
  rcases ht with rfl | ⟨c, rfl, hc⟩
  · exact ⟨rfl, trivial, trivial, trivial⟩
  · obtain ⟨h1, h2, h3, h4, h5, h6⟩ := floatSuffix_not_special hc
    refine ⟨?_, h1, ⟨h2, h3⟩, h4⟩
    simp [parseExp, h5, h6]

theorem parseExp_of_append (ex tl : List Char) (he : ExpShape ex)
    (ht : TailShape tl) : ∃ e, parseExp (ex ++ tl) = some (e, tl) := by
  obtain ⟨hpt, hnd, hns, -⟩ := parseExp_tail tl ht
  cases ex with
  | nil => exact ⟨0, by simpa using hpt⟩
  | cons c rest =>
    obtain ⟨hce, sgn, ds, rfl, hsgn, hdsne, hdsdig⟩ :=
      (show (c = 'e' ∨ c = 'E') ∧ ∃ sgn ds, rest = sgn ++ ds ∧ SignShape sgn ∧
          ds ≠ [] ∧ allDigits ds = true from he)
    have hds_head : headNotSign (ds ++ tl) := by
      cases ds with
      | nil => exact absurd rfl hdsne
      | cons d dr =>
        simp only [allDigits, List.all_cons, Bool.and_eq_true] at hdsdig
        obtain ⟨hd1, hd2, -⟩ := digit_not_special hdsdig.1
        exact ⟨hd1, hd2⟩
    obtain ⟨b, hps⟩ := parseSign_of_append sgn (ds ++ tl) hsgn hds_head
    obtain ⟨htw, hdw⟩ := takeWhile_digits_of_append ds tl hdsdig hnd
    have hcc : (c == 'e' || c == 'E') = true := by
      rcases hce with rfl | rfl <;> simp
    refine ⟨if b then -(digitsToNat ds : Int) else (digitsToNat ds : Int), ?_⟩
    have harr : (c :: (sgn ++ ds)) ++ tl = c :: (sgn ++ (ds ++ tl)) := by simp
    rw [harr]
    simp only [parseExp, hcc, if_true, hps, htw, hdw]
    simp [List.isEmpty_iff, hdsne]

theorem parseTail_iff (cs : List Char) : parseTail cs = true ↔ TailShape cs := by
  match cs with
  | [] => simp [parseTail, TailShape]
  | [c] => simp [parseTail, TailShape]
  | c1 :: c2 :: r => simp [parseTail, TailShape]

theorem mantShape_headNotSign (mant rest : List Char) (hm : MantShape mant) :
    headNotSign (mant ++ rest) := by
  rcases hm with ⟨hne, hdig⟩ | ⟨ip, fp, rfl, hip, hfp, hor⟩
  · cases mant with
    | nil => exact absurd rfl hne
    | cons c r =>
      simp only [allDigits, List.all_cons, Bool.and_eq_true] at hdig
      obtain ⟨ha, hb, -⟩ := digit_not_special hdig.1
      exact ⟨ha, hb⟩
  · cases ip with
    | nil => exact ⟨show '.' ≠ '-' by decide, show '.' ≠ '+' by decide⟩
    | cons d dr =>
      simp only [allDigits, List.all_cons, Bool.and_eq_true] at hip
      obtain ⟨ha, hb, -⟩ := digit_not_special hip.1
      exact ⟨ha, hb⟩

theorem parseDecimal_isSome_iff (cs : List Char) :
    (parseDecimal cs).isSome = true ↔
      ∃ mant ex tl, cs = mant ++ (ex ++ tl) ∧ MantShape mant ∧ ExpShape ex ∧
        TailShape tl := by
  constructor
  · intro h
    cases hpm : parseMantissa cs with
    | none => rw [parseDecimal, hpm] at h; simp at h
    | some p =>
      rcases p with ⟨m, r1⟩
      rw [parseDecimal, hpm] at h
      simp only at h
      cases hpe : parseExp r1 with
      | none => rw [hpe] at h; simp at h
      | some q =>
        rcases q with ⟨e, r2⟩
        rw [hpe] at h
        simp only at h
        by_cases hpt : parseTail r2 = true
        · obtain ⟨mant, hmant, hcs⟩ := parseMantissa_split cs m r1 hpm
          obtain ⟨ex, hex, hr1⟩ := parseExp_split r1 e r2 hpe
          exact ⟨mant, ex, r2, by rw [hcs, hr1], hmant, hex,
            (parseTail_iff r2).1 hpt⟩
        · rw [if_neg hpt] at h
          simp at h
  · rintro ⟨mant, ex, tl, rfl, hmant, hex, htl⟩
    obtain ⟨hpt0, hnd_tl, hns_tl, hndot_tl⟩ := parseExp_tail tl htl
    have hnd : headNotDigit (ex ++ tl) ∧ headNotDot (ex ++ tl) := by
      cases ex with
      | nil => exact ⟨hnd_tl, hndot_tl⟩
      | cons c rest =>
        obtain ⟨hce, -⟩ :=
          (show (c = 'e' ∨ c = 'E') ∧ ∃ sgn ds, rest = sgn ++ ds ∧
              SignShape sgn ∧ ds ≠ [] ∧ allDigits ds = true from hex)
        rcases hce with rfl | rfl
        · exact ⟨show ('e').isDigit = false by decide, show 'e' ≠ '.' by decide⟩
        · exact ⟨show ('E').isDigit = false by decide, show 'E' ≠ '.' by decide⟩
    obtain ⟨v, hpm⟩ := parseMantissa_of_append mant (ex ++ tl) hmant hnd.1 hnd.2
    obtain ⟨e, hpe⟩ := parseExp_of_append ex tl hex htl
    have hptl : parseTail tl = true := (parseTail_iff tl).2 htl
    simp only [parseDecimal, hpm, hpe, hptl]
    simp

theorem hexDigit_not_special {c : Char} (h : isHexDigit c = true) :
    c ≠ '-' ∧ c ≠ '+' ∧ c ≠ '.' ∧ c ≠ 'p' ∧ c ≠ 'P' := by
  refine ⟨?_, ?_, ?_, ?_, ?_⟩ <;> rintro rfl <;> exact absurd h (by decide)

theorem takeWhile_hexdigits_of_append : ∀ (ds rest : List Char),
    allHexDigits ds = true → headNotHexDigit rest →
    (ds ++ rest).takeWhile isHexDigit = ds ∧
      (ds ++ rest).dropWhile isHexDigit = rest
  | [], rest, _, h2 => by
    cases rest with
    | nil => simp
    | cons c r =>
      simp only [headNotHexDigit] at h2
      simp [List.takeWhile_cons_of_neg, List.dropWhile_cons_of_neg, h2]
  | d :: ds, rest, h, h2 => by
    simp only [allHexDigits, List.all_cons, Bool.and_eq_true] at h
    have ih := takeWhile_hexdigits_of_append ds rest h.2 h2
    simp only [List.cons_append, List.takeWhile_cons_of_pos h.1,
      List.dropWhile_cons_of_pos h.1, ih.1, ih.2, and_self]

theorem headNotHexDigit_dropWhile (cs : List Char) :
    headNotHexDigit (cs.dropWhile isHexDigit) := by
  have h := List.head?_dropWhile_not isHexDigit cs
  cases hd : cs.dropWhile isHexDigit with
  | nil => trivial
  | cons c r =>
    rw [hd] at h
    simpa [headNotHexDigit] using h

theorem parseBinExp_split (cs : List Char) (e : Int)
    (h : parseBinExp cs = some e) : BinExpShape cs := by
  match cs with
  | [] => simp [parseBinExp] at h
  | c :: rest =>
    simp only [parseBinExp] at h
    split at h
    case isTrue hce =>
      rcases hps : parseSign rest with ⟨neg, r1⟩
      rw [hps] at h
      simp only at h
      split at h
      case isTrue => exact absurd h (by simp)
      case isFalse hg =>
        split at h
        case isFalse => exact absurd h (by simp)
        case isTrue hpt =>
          obtain ⟨sgn, hsgn, hrest⟩ := parseSign_split rest
          rw [hps] at hrest
          refine ⟨by simpa using hce, sgn, r1.takeWhile Char.isDigit,
            r1.dropWhile Char.isDigit, ?_, hsgn,
            by simpa [List.isEmpty_iff] using hg, List.all_takeWhile,
            (parseTail_iff _).1 hpt⟩
          rw [hrest, List.takeWhile_append_dropWhile]
    case isFalse hce => exact absurd h (by simp)

theorem parseBinExp_of_shape (cs : List Char) (h : BinExpShape cs) :
    ∃ e, parseBinExp cs = some e := by
  match cs with
  | [] => exact absurd h (by simp [BinExpShape])
  | c :: rest0 =>
    obtain ⟨hce, sgn, ds, tl, hrest, hsgn, hdsne, hdsdig, htl⟩ :=
      (show (c = 'p' ∨ c = 'P') ∧ ∃ sgn ds tl, rest0 = sgn ++ (ds ++ tl) ∧
          SignShape sgn ∧ ds ≠ [] ∧ allDigits ds = true ∧ TailShape tl from h)
    subst hrest
    obtain ⟨hpt0, hnd, hns, -⟩ := parseExp_tail tl htl
    have hds_head : headNotSign (ds ++ tl) := by
      cases ds with
      | nil => exact absurd rfl hdsne
      | cons d dr =>
        simp only [allDigits, List.all_cons, Bool.and_eq_true] at hdsdig
        obtain ⟨hd1, hd2, -⟩ := digit_not_special hdsdig.1
        exact ⟨hd1, hd2⟩
    obtain ⟨b, hps⟩ := parseSign_of_append sgn (ds ++ tl) hsgn hds_head
    obtain ⟨htw, hdw⟩ := takeWhile_digits_of_append ds tl hdsdig hnd
    have hcc : (c == 'p' || c == 'P') = true := by
      rcases hce with rfl | rfl <;> simp
    refine ⟨if b then -(digitsToNat ds : Int) else (digitsToNat ds : Int), ?_⟩
    simp only [parseBinExp, hcc, if_true, hps, htw, hdw]
    have hie : ds.isEmpty = false := by
      cases ds with
      | nil => exact absurd rfl hdsne
      | cons a r => rfl
    simp [hie, (parseTail_iff tl).2 htl]

theorem parseHexFloat_split (cs : List Char) (q : ℚ)
    (h : parseHexFloat cs = some q) :
    ∃ pre mant ex, cs = pre ++ (mant ++ ex) ∧
      (pre = ['0', 'x'] ∨ pre = ['0', 'X']) ∧ HexMantShape mant ∧
      BinExpShape ex := by
  match cs with
  | [] => simp [parseHexFloat] at h
  | [z] => simp [parseHexFloat] at h
  | z :: x :: rest =>
    have hrec := List.takeWhile_append_dropWhile isHexDigit rest
    have hipd : allHexDigits (rest.takeWhile isHexDigit) = true :=
      List.all_takeWhile
    simp only [parseHexFloat] at h
    split at h
    case isFalse => exact absurd h (by simp)
    case isTrue hzx =>
      obtain ⟨hz, hx⟩ : z = '0' ∧ (x = 'x' ∨ x = 'X') := by
        have h2 := hzx
        simp only [Bool.and_eq_true, Bool.or_eq_true, beq_iff_eq] at h2
        exact h2
      subst hz
      have hpre : [('0' : Char), x] = ['0', 'x'] ∨ [('0' : Char), x] = ['0', 'X'] := by
        rcases hx with rfl | rfl
        · exact Or.inl rfl
        · exact Or.inr rfl
      split at h
      case _ c r2 heq =>
        rw [heq] at hrec
        split at h
        case isTrue hc =>
          have hc2 : c = '.' := by simpa using hc
          subst hc2
          split at h
          case isTrue => exact absurd h (by simp)
          case isFalse hg =>
            cases hbe : parseBinExp (r2.dropWhile isHexDigit) with
            | none => rw [hbe] at h; simp at h
            | some e =>
              refine ⟨['0', x],
                rest.takeWhile isHexDigit ++ '.' :: r2.takeWhile isHexDigit,
                r2.dropWhile isHexDigit, ?_, hpre,
                Or.inr ⟨_, _, rfl, hipd, List.all_takeWhile, ?_⟩,
                parseBinExp_split _ e hbe⟩
              · simp only [List.cons_append, List.nil_append, List.cons.injEq,
                  true_and]
                rw [List.append_assoc, List.cons_append,
                  List.takeWhile_append_dropWhile]
                exact hrec.symm
              · rcases Bool.and_eq_false_iff.1 (Bool.not_eq_true _ ▸ hg)
                  with h1 | h1
                · exact Or.inl (by simpa [List.isEmpty_iff] using h1)
                · exact Or.inr (by simpa [List.isEmpty_iff] using h1)
        case isFalse hc =>
          split at h
          case isTrue => exact absurd h (by simp)
          case isFalse hg =>
            rw [heq] at h
            cases hbe : parseBinExp (c :: r2) with
            | none => rw [hbe] at h; simp at h
            | some e =>
              refine ⟨['0', x], rest.takeWhile isHexDigit, c :: r2, ?_, hpre,
                Or.inl ⟨by simpa [List.isEmpty_iff] using hg, hipd⟩,
                parseBinExp_split _ e hbe⟩
              simp only [List.cons_append, List.nil_append, List.cons.injEq,
                true_and]
              exact hrec.symm
      case _ heq => exact absurd h (by simp)

theorem parseHexFloat_of_shape (pre mant ex : List Char)
    (hpre : pre = ['0', 'x'] ∨ pre = ['0', 'X']) (hm : HexMantShape mant)
    (hbex : BinExpShape ex) :
    ∃ q, parseHexFloat (pre ++ (mant ++ ex)) = some q := by
  have hie : ∀ l : List Char, l ≠ [] → l.isEmpty = false := by
    intro l hl
    cases l with
    | nil => exact absurd rfl hl
    | cons a r => rfl
  obtain ⟨p, exr, hexr, hp⟩ : ∃ p exr, ex = p :: exr ∧ (p = 'p' ∨ p = 'P') := by
    cases ex with
    | nil => exact absurd hbex (by simp [BinExpShape])
    | cons p exr =>
      exact ⟨p, exr, rfl,
        ((show (p = 'p' ∨ p = 'P') ∧ ∃ sgn ds tl, exr = sgn ++ (ds ++ tl) ∧
          SignShape sgn ∧ ds ≠ [] ∧ allDigits ds = true ∧ TailShape tl
          from hbex)).1⟩
  have hnd_ex : headNotHexDigit ex := by
    rw [hexr]
    rcases hp with rfl | rfl
    · exact show isHexDigit 'p' = false by decide
    · exact show isHexDigit 'P' = false by decide
  have hndot_ex : ∀ c0 r0, ex = c0 :: r0 → (c0 == '.') = false := by
    intro c0 r0 hc0
    rw [hexr] at hc0
    obtain ⟨rfl, -⟩ := List.cons.injEq .. |>.mp hc0
    rcases hp with rfl | rfl <;> simp
  obtain ⟨e, hbe⟩ := parseBinExp_of_shape ex hbex
  have hx : (pre ++ (mant ++ ex)) = '0' :: pre[1]! :: (mant ++ ex) ∧
      (pre[1]! = 'x' ∨ pre[1]! = 'X') := by
    rcases hpre with rfl | rfl
    · exact ⟨rfl, Or.inl rfl⟩
    · exact ⟨rfl, Or.inr rfl⟩
  rw [hx.1]
  have hguard : (('0' : Char) == '0' && (pre[1]! == 'x' || pre[1]! == 'X')) =
      true := by
    rcases hx.2 with h2 | h2 <;> rw [h2] <;> simp
  rcases hm with ⟨hne, hdig⟩ | ⟨ip, fp, hmant, hip, hfp, hor⟩
  · obtain ⟨htw, hdw⟩ := takeWhile_hexdigits_of_append mant ex hdig hnd_ex
    refine ⟨(hexDigitsToNat mant : ℚ) * (2 : ℚ) ^ e, ?_⟩
    rw [hexr] at hdw htw hbe ⊢
    simp only [parseHexFloat, hguard, if_true, htw, hdw]
    have hcdot := hndot_ex p exr hexr
    simp [hcdot, hie mant hne, hbe]
  · subst hmant
    have hnd2 : headNotHexDigit ('.' :: (fp ++ ex)) :=
      show isHexDigit '.' = false by decide
    obtain ⟨htw, hdw⟩ :=
      takeWhile_hexdigits_of_append ip ('.' :: (fp ++ ex)) hip hnd2
    obtain ⟨htw2, hdw2⟩ := takeWhile_hexdigits_of_append fp ex hfp hnd_ex
    refine ⟨hexMantissaVal ip fp * (2 : ℚ) ^ e, ?_⟩
    have harr : (ip ++ '.' :: fp) ++ ex = ip ++ ('.' :: (fp ++ ex)) := by simp
    rw [harr]
    have hg : (ip.isEmpty && fp.isEmpty) = false := by
      rcases hor with h2 | h2
      · simp [hie ip h2]
      · simp [hie fp h2]
    simp [parseHexFloat, hguard, htw, hdw, htw2, hdw2, hg, hbe]
    exact fun h5 => hx.2.resolve_left h5

theorem specialLiteral_isSome_iff (s : String) :
    (specialLiteral s).isSome = true ↔ SparkSpecialShape s := by
  simp only [specialLiteral, SparkSpecialShape]
  split_ifs with h1 h2 h3
  · simp [h1]
  · simp [h1, h2]
  · simp [h1, h2, h3]
  · simp [h1, h2, h3]

theorem mantShape_head (mant rest : List Char) (hm : MantShape mant) :
    ∃ c r, mant ++ rest = c :: r ∧ (c.isDigit = true ∨ c = '.') := by
  rcases hm with ⟨hne, hdig⟩ | ⟨ip, fp, rfl, hip, hfp, hor⟩
  · cases mant with
    | nil => exact absurd rfl hne
    | cons c r =>
      simp only [allDigits, List.all_cons, Bool.and_eq_true] at hdig
      exact ⟨c, r ++ rest, by simp, Or.inl hdig.1⟩
  · cases ip with
    | nil => exact ⟨'.', fp ++ rest, by simp, Or.inr rfl⟩
    | cons d dr =>
      simp only [allDigits, List.all_cons, Bool.and_eq_true] at hip
      exact ⟨d, (dr ++ '.' :: fp) ++ rest, by simp, Or.inl hip.1⟩

theorem headDigitDot_ne_special (cs : List Char) (c : Char) (r : List Char)
    (hcr : cs = c :: r) (hc : c.isDigit = true ∨ c = '.') :
    cs ≠ ['N', 'a', 'N'] ∧ cs ≠ ['I', 'n', 'f', 'i', 'n', 'i', 't', 'y'] := by
  subst hcr
  constructor
  · intro heq
    obtain ⟨rfl, -⟩ := List.cons.injEq .. |>.mp heq
    rcases hc with hc | hc
    · exact absurd hc (by decide)
    · exact absurd hc (by decide)
  · intro heq
    obtain ⟨rfl, -⟩ := List.cons.injEq .. |>.mp heq
    rcases hc with hc | hc
    · exact absurd hc (by decide)
    · exact absurd hc (by decide)

theorem javaParseDouble_isSome_iff (s : String) :
    (javaParseDouble s).isSome = true ↔
      DecimalShape s ∨ SpecialShape s ∨ HexShape s := by
  rcases hps : parseSign (trimChars s.data) with ⟨neg, cs1⟩
  obtain ⟨sgn0, hsgn0, hcs0⟩ := parseSign_split (trimChars s.data)
  rw [hps] at hcs0
  constructor
  · intro h
    simp only [javaParseDouble, hps] at h
    by_cases h1 : cs1 = ['N', 'a', 'N']
    · exact Or.inr (Or.inl ⟨sgn0, hsgn0, Or.inl (by rw [hcs0, h1])⟩)
    · rw [if_neg h1] at h
      by_cases h2 : cs1 = ['I', 'n', 'f', 'i', 'n', 'i', 't', 'y']
      · exact Or.inr (Or.inl ⟨sgn0, hsgn0, Or.inr (by rw [hcs0, h2])⟩)
      · rw [if_neg h2] at h
        cases hdec : parseDecimal cs1 with
        | some q =>
          obtain ⟨mant, ex, tl, hcs1, hmant, hex, htl⟩ :=
            (parseDecimal_isSome_iff cs1).1 (by rw [hdec]; rfl)
          exact Or.inl ⟨sgn0, mant, ex, tl, by rw [hcs0, hcs1], hsgn0, hmant,
            hex, htl⟩
        | none =>
          rw [hdec] at h
          cases hhex : parseHexFloat cs1 with
          | none => rw [hhex] at h; simp at h
          | some q =>
            obtain ⟨pre, mant, ex, hcs1, hpre, hmant, hbex⟩ :=
              parseHexFloat_split cs1 q hhex
            exact Or.inr (Or.inr ⟨sgn0, pre, mant, ex, by rw [hcs0, hcs1],
              hsgn0, hpre, hmant, hbex⟩)
  · intro h
    rcases h with ⟨sgn, mant, ex, tl, hcs, hsgn, hmant, hex, htl⟩ |
      ⟨sgn, hsgn, hlit⟩ | ⟨sgn, pre, mant, ex, hcs, hsgn, hpre, hmant, hbex⟩
    · have hns := mantShape_headNotSign mant (ex ++ tl) hmant
      obtain ⟨b, hpsa⟩ := parseSign_of_append sgn (mant ++ (ex ++ tl)) hsgn hns
      have hpair : (neg, cs1) = (b, mant ++ (ex ++ tl)) := by
        rw [← hps, hcs, hpsa]
      have hcs1 : cs1 = mant ++ (ex ++ tl) := congrArg Prod.snd hpair
      obtain ⟨c, r, hcr, hcp⟩ := mantShape_head mant (ex ++ tl) hmant
      obtain ⟨hne1, hne2⟩ :=
        headDigitDot_ne_special cs1 c r (by rw [hcs1, hcr]) hcp
      have hdec : (parseDecimal cs1).isSome = true :=
        (parseDecimal_isSome_iff cs1).2 ⟨mant, ex, tl, hcs1, hmant, hex, htl⟩
      simp only [javaParseDouble, hps, if_neg hne1, if_neg hne2]
      cases hq : parseDecimal cs1 with
      | none => rw [hq] at hdec; simp at hdec
      | some q => simp
    · rcases hlit with hcs | hcs
      · have hns : headNotSign (['N', 'a', 'N'] : List Char) :=
          ⟨by decide, by decide⟩
        obtain ⟨b, hpsa⟩ := parseSign_of_append sgn ['N', 'a', 'N'] hsgn hns
        have hpair : (neg, cs1) = (b, ['N', 'a', 'N']) := by
          rw [← hps, hcs, hpsa]
        have hcs1 : cs1 = ['N', 'a', 'N'] := congrArg Prod.snd hpair
        simp only [javaParseDouble, hps, if_pos hcs1]
        simp
      · have hns : headNotSign (['I', 'n', 'f', 'i', 'n', 'i', 't', 'y'] :
            List Char) := ⟨by decide, by decide⟩
        obtain ⟨b, hpsa⟩ :=
          parseSign_of_append sgn ['I', 'n', 'f', 'i', 'n', 'i', 't', 'y']
            hsgn hns
        have hpair : (neg, cs1) = (b, ['I', 'n', 'f', 'i', 'n', 'i', 't', 'y']) := by
          rw [← hps, hcs, hpsa]
        have hcs1 : cs1 = ['I', 'n', 'f', 'i', 'n', 'i', 't', 'y'] :=
          congrArg Prod.snd hpair
        have hne1 : cs1 ≠ ['N', 'a', 'N'] := by
          rw [hcs1]
          decide
        simp only [javaParseDouble, hps, if_neg hne1, if_pos hcs1]
        simp
    · have hbody : pre ++ (mant ++ ex) = '0' :: (pre[1]!) :: (mant ++ ex) := by
        rcases hpre with rfl | rfl <;> rfl
      have hns : headNotSign (pre ++ (mant ++ ex)) := by
        rw [hbody]
        exact ⟨by decide, by decide⟩
      obtain ⟨b, hpsa⟩ := parseSign_of_append sgn (pre ++ (mant ++ ex)) hsgn hns
      have hpair : (neg, cs1) = (b, pre ++ (mant ++ ex)) := by
        rw [← hps, hcs, hpsa]
      have hcs1 : cs1 = pre ++ (mant ++ ex) := congrArg Prod.snd hpair
      obtain ⟨hne1, hne2⟩ := headDigitDot_ne_special cs1 '0' (pre[1]! :: (mant ++ ex))
        (by rw [hcs1, hbody]) (Or.inl (by decide))
      simp only [javaParseDouble, hps, if_neg hne1, if_neg hne2]
      cases hq : parseDecimal cs1 with
      | some q => simp
      | none =>
        obtain ⟨q, hq2⟩ := parseHexFloat_of_shape pre mant ex hpre hmant hbex
        rw [← hcs1] at hq2
        rw [hq2]
        simp

theorem parseDouble_isSome_iff (s : String) :
    (parseDouble s).isSome = true ↔ NumericShape s := by
  have hj := javaParseDouble_isSome_iff s
  have hsp := specialLiteral_isSome_iff s
  constructor
  · intro h
    rw [parseDouble] at h
    cases hj2 : javaParseDouble s with
    | some v =>
      rcases hj.1 (by rw [hj2]; rfl) with h1 | h2 | h3
      · exact Or.inl h1
      · exact Or.inr (Or.inl h2)
      · exact Or.inr (Or.inr (Or.inl h3))
    | none =>
      rw [hj2] at h
      exact Or.inr (Or.inr (Or.inr (hsp.1 h)))
  · intro h
    rw [parseDouble]
    cases hj2 : javaParseDouble s with
    | some v => simp
    | none =>
      rcases h with h1 | h2 | h3 | h4
      · rw [hj2] at hj
        exact absurd (hj.2 (Or.inl h1)) (by simp)
      · rw [hj2] at hj
        exact absurd (hj.2 (Or.inr (Or.inl h2))) (by simp)
      · rw [hj2] at hj
        exact absurd (hj.2 (Or.inr (Or.inr h3))) (by simp)
      · exact hsp.2 h4

/-! ## Lemmas about the pagination loop -/

theorem fetchAux_extend (server : Request → ApiResponse) (ak rg sd ed : String) :
    ∀ (fuel o : Nat) (acc : List RawRecord) (tr : List (Nat × Nat))
      (out : FetchResult × List (Nat × Nat)),
      fetchAux server ak rg sd ed fuel o acc tr = some out →
      ∃ su, out.2 = tr ++ su
  | 0, o, acc, tr, out, h => by simp [fetchAux] at h
  | fuel + 1, o, acc, tr, out, h => by
    simp only [fetchAux] at h
    split at h
    · obtain rfl := Option.some.inj h
      exact ⟨[(o, acc.length)], rfl⟩
    · split at h
      · obtain rfl := Option.some.inj h
        exact ⟨[(o, acc.length)], rfl⟩
      · obtain rfl := Option.some.inj h
        exact ⟨[(o, acc.length)], rfl⟩
      · split at h
        · obtain rfl := Option.some.inj h
          exact ⟨[(o, acc.length)], rfl⟩
        · split at h
          · obtain rfl := Option.some.inj h
            exact ⟨[(o, acc.length)], rfl⟩
          · obtain ⟨su, hsu⟩ :=
              fetchAux_extend server ak rg sd ed fuel (o + 5000) _ _ out h
            exact ⟨(o, acc.length) :: su, by simpa using hsu⟩

theorem fetchAux_offsets (server : Request → ApiResponse) (ak rg sd ed : String) :
    ∀ (fuel o : Nat) (acc : List RawRecord) (tr : List (Nat × Nat))
      (out : FetchResult × List (Nat × Nat)),
      fetchAux server ak rg sd ed fuel o acc tr = some out →
      ∀ i : Nat, tr.length ≤ i → i < out.2.length →
        (out.2[i]?).map Prod.fst = some (o + 5000 * (i - tr.length))
  | 0, o, acc, tr, out, h => by simp [fetchAux] at h
  | fuel + 1, o, acc, tr, out, h => by
    simp only [fetchAux] at h
    split at h
    · obtain rfl := Option.some.inj h
      intro i hle hlt
      simp only [List.length_append, List.length_cons, List.length_nil] at hlt
      have hi : i = tr.length := by omega
      subst hi
      rw [List.getElem?_append_right (Nat.le_refl _)]
      simp
    · split at h
      · obtain rfl := Option.some.inj h
        intro i hle hlt
        simp only [List.length_append, List.length_cons, List.length_nil] at hlt
        have hi : i = tr.length := by omega
        subst hi
        rw [List.getElem?_append_right (Nat.le_refl _)]
        simp
      · obtain rfl := Option.some.inj h
        intro i hle hlt
        simp only [List.length_append, List.length_cons, List.length_nil] at hlt
        have hi : i = tr.length := by omega
        subst hi
        rw [List.getElem?_append_right (Nat.le_refl _)]
        simp
      · split at h
        · obtain rfl := Option.some.inj h
          intro i hle hlt
          simp only [List.length_append, List.length_cons, List.length_nil] at hlt
          have hi : i = tr.length := by omega
          subst hi
          rw [List.getElem?_append_right (Nat.le_refl _)]
          simp
        · split at h
          · obtain rfl := Option.some.inj h
            intro i hle hlt
            simp only [List.length_append, List.length_cons, List.length_nil] at hlt
            have hi : i = tr.length := by omega
            subst hi
            rw [List.getElem?_append_right (Nat.le_refl _)]
            simp
          · intro i hle hlt
            by_cases hcase : tr.length + 1 ≤ i
            · have h5 := fetchAux_offsets server ak rg sd ed fuel (o + 5000) _ _
                out h i (by simpa using hcase) hlt
              have hlen1 : (tr ++ [(o, acc.length)]).length = tr.length + 1 := by
                simp
              rw [hlen1] at h5
              rw [h5]
              congr 1
              omega
            · have hi : i = tr.length := by omega
              subst hi
              obtain ⟨su, hsu⟩ :=
                fetchAux_extend server ak rg sd ed fuel (o + 5000) _ _ out h
              rw [hsu, List.append_assoc] at hlt ⊢
              rw [List.getElem?_append_right (Nat.le_refl _)]
              simp

theorem fetchAux_emptyPage_none (ak rg sd ed : String) :
    ∀ (fuel o : Nat) (tr : List (Nat × Nat)),
      fetchAux emptyPageServer ak rg sd ed fuel o [] tr = none
  | 0, _, _ => rfl
  | fuel + 1, o, tr => by
    simp only [fetchAux, emptyPageServer]
    norm_num
    exact fetchAux_emptyPage_none ak rg sd ed fuel (o + 5000) (tr ++ [(o, 0)])

theorem fetchAux_terminates_of_nonempty (server : Request → ApiResponse)
    (ak rg sd ed : String) (T : Nat)
    (hpage : ∀ (o : Nat) (d : List RawRecord) (t : Option Int),
      (server ⟨ak, rg, sd, ed, o, 5000⟩).body = .wellFormed d t →
      d ≠ [] ∧ ∀ n : Int, t = some n → n ≤ (T : Int)) :
    ∀ (fuel o : Nat) (acc : List RawRecord) (tr : List (Nat × Nat)),
      T < acc.length + fuel → acc.length ≤ T →
      (fetchAux server ak rg sd ed fuel o acc tr).isSome = true
  | 0, o, acc, tr, h1, h2 => by exfalso; omega
  | fuel + 1, o, acc, tr, h1, h2 => by
    simp only [fetchAux]
    split
    · simp
    · cases hb : (server ⟨ak, rg, sd, ed, o, 5000⟩).body with
      | notJson => simp
      | missingContainer => simp
      | wellFormed data total =>
        obtain ⟨hdne, hbound⟩ := hpage o data total hb
        cases total with
        | none => simp
        | some t =>
          dsimp only
          by_cases hge : ((acc ++ data).length : Int) ≥ t
          · rw [if_pos hge]
            simp
          · rw [if_neg hge]
            have hdlen : 1 ≤ data.length := by
              cases data with
              | nil => exact absurd rfl hdne
              | cons a l => simp
            have hn : t ≤ (T : Int) := hbound t rfl
            have hlt : (acc ++ data).length ≤ T := by
              have hge' := hge
              simp only [List.length_append] at hge' ⊢
              push_cast at hge' hn
              omega
            exact fetchAux_terminates_of_nonempty server ak rg sd ed T hpage
              fuel (o + 5000) (acc ++ data) (tr ++ [(o, acc.length)])
              (by simp only [List.length_append]; omega) hlt

theorem sliceServer_run (recs : List RawRecord) (ak rg sd ed : String) :
    ∀ (fuel o : Nat) (tr : List (Nat × Nat)),
      (o = 0 ∨ o < recs.length) →
      (recs.length - o - 1) / 5000 + 1 ≤ fuel →
      fetchAux (sliceServer recs) ak rg sd ed fuel o (recs.take o) tr =
        some (.ok recs,
          tr ++ (List.range ((recs.length - o - 1) / 5000 + 1)).map
            (fun j => (o + 5000 * j, o + 5000 * j)))
  | 0, o, tr, ho, hfuel => by exfalso; omega
  | fuel + 1, o, tr, ho, hfuel => by
    have hlen : (recs.take o).length = o := by
      rw [List.length_take]
      omega
    have hacc : recs.take o ++ (recs.drop o).take 5000 = recs.take (o + 5000) :=
      (List.take_add recs o 5000).symm
    simp only [fetchAux, sliceServer, hlen, hacc]
    norm_num
    by_cases hdone : (recs.length : Int) ≤ (o : Int) + 5000
    · rw [if_pos hdone]
      have hd : recs.length ≤ o + 5000 := by
        push_cast at hdone
        omega
      have hpages : (recs.length - o - 1) / 5000 = 0 :=
        Nat.div_eq_of_lt (by omega)
      rw [List.take_of_length_le hd, hpages]
      simp [List.range_succ]
    · rw [if_neg hdone]
      have hd : o + 5000 < recs.length := by
        push_cast at hdone
        omega
      have hdiv : (recs.length - o - 1) / 5000 =
          (recs.length - (o + 5000) - 1) / 5000 + 1 := by
        have harith : recs.length - o - 1 =
            (recs.length - (o + 5000) - 1) + 5000 := by omega
        rw [harith, Nat.add_div_right _ (by norm_num)]
      rw [sliceServer_run recs ak rg sd ed fuel (o + 5000) (tr ++ [(o, o)])
        (Or.inr hd) (by omega)]
      have htr : tr ++ [(o, o)] ++
            (List.range ((recs.length - (o + 5000) - 1) / 5000 + 1)).map
              (fun j => (o + 5000 + 5000 * j, o + 5000 + 5000 * j)) =
          tr ++ (List.range ((recs.length - (o + 5000) - 1) / 5000 + 1 + 1)).map
              (fun j => (o + 5000 * j, o + 5000 * j)) := by
        rw [List.append_assoc, List.singleton_append]
        congr 1
        conv_rhs => rw [List.range_succ_eq_map]
        rw [List.map_cons, List.map_map]
        simp only [Nat.mul_zero, Nat.add_zero, List.cons.injEq, true_and,
          List.map_inj_left]
        intro j hj
        simp only [Function.comp_apply, Nat.succ_eq_add_one, Prod.mk.injEq]
        omega
      rw [hdiv, htr]

theorem sliceServer_run_none (recs : List RawRecord) (ak rg sd ed : String) :
    ∀ (fuel o : Nat) (tr : List (Nat × Nat)),
      (o = 0 ∨ o < recs.length) →
      fuel < (recs.length - o - 1) / 5000 + 1 →
      fetchAux (sliceServer recs) ak rg sd ed fuel o (recs.take o) tr = none
  | 0, o, tr, ho, hfuel => rfl
  | fuel + 1, o, tr, ho, hfuel => by
    have hlen : (recs.take o).length = o := by
      rw [List.length_take]
      omega
    have hacc : recs.take o ++ (recs.drop o).take 5000 = recs.take (o + 5000) :=
      (List.take_add recs o 5000).symm
    have hd : o + 5000 < recs.length := by
      by_contra hcon
      have : (recs.length - o - 1) / 5000 = 0 := Nat.div_eq_of_lt (by omega)
      omega
    have hdiv : (recs.length - o - 1) / 5000 =
        (recs.length - (o + 5000) - 1) / 5000 + 1 := by
      have harith : recs.length - o - 1 =
          (recs.length - (o + 5000) - 1) + 5000 := by omega
      rw [harith, Nat.add_div_right _ (by norm_num)]
    simp only [fetchAux, sliceServer, hlen, hacc]
    norm_num
    rw [if_neg (show ¬((recs.length : Int) ≤ (o : Int) + 5000) by omega)]
    exact sliceServer_run_none recs ak rg sd ed fuel (o + 5000) (tr ++ [(o, o)])
      (Or.inr hd) (by omega)

/-! ## Claim theorems -/

/-- C1, counterexample: the claim as stated is false.  Against a server whose
every page is well-formed with an empty `data` array and a reported total of
1, the accumulated count never reaches the total, and the `while True` loop
of `fetch_eia_electricity_demand` never terminates — the accumulated-count
bound alone does not guarantee termination when next pages can be empty. -/
theorem fetch_loops_forever_on_empty_pages :
    ¬ fetchTerminates emptyPageServer "key" "PJM" "2020-01-01" "2026-02-01" := by
  rintro ⟨fuel, h⟩
  rw [fetchTrace,
    fetchAux_emptyPage_none "key" "PJM" "2020-01-01" "2026-02-01" fuel 0 []] at h
  simp at h

/-- C1, amended: pagination stops once the accumulated count is at least the
server-reported total, and this bound guarantees termination (never the
absence of a next-page signal) provided every well-formed success page
carries at least one record and the reported totals are bounded by some `T` —
in particular when the server keeps returning fewer records per page than
the page size but at least one; `T + 1` iterations then always suffice. -/
theorem fetch_terminates_of_nonempty_bounded_pages
    (server : Request → ApiResponse) (ak rg sd ed : String) (T : Nat)
    (hpage : ∀ (o : Nat) (d : List RawRecord) (t : Option Int),
      (server ⟨ak, rg, sd, ed, o, 5000⟩).body = .wellFormed d t →
      d ≠ [] ∧ ∀ n : Int, t = some n → n ≤ (T : Int)) :
    (fetchTrace server ak rg sd ed (T + 1)).isSome = true ∧
      fetchTerminates server ak rg sd ed := by
  have h := fetchAux_terminates_of_nonempty server ak rg sd ed T hpage (T + 1)
    0 [] [] (by simp) (by simp)
  exact ⟨h, ⟨T + 1, h⟩⟩

/-- Witness for the amended C1 at a concrete input: a constant one-record
server with total 1 satisfies the hypotheses with `T = 1` and terminates. -/
theorem fetch_terminates_of_nonempty_bounded_pages_witness :
    (fetchTrace oneRecordServer "key" "PJM" "2020-01-01" "2026-02-01"
        2).isSome = true ∧
      fetchTerminates oneRecordServer "key" "PJM" "2020-01-01" "2026-02-01" :=
  fetch_terminates_of_nonempty_bounded_pages oneRecordServer "key" "PJM"
    "2020-01-01" "2026-02-01" 1 (by
      intro o d t h
      simp only [oneRecordServer] at h
      injection h with hd ht
      subst hd
      subst ht
      refine ⟨by simp, ?_⟩
      rintro n hn
      injection hn with hn1
      omega)

/-- C2: a non-success HTTP status ends the fetch at that page, returning the
records accumulated from earlier pages as a normal value (no exception); if
the first page fails, the result is the empty list, and the driving loop
continues with the remaining regions exactly as if the failed region had
produced nothing. -/
theorem fetch_truncates_on_http_error
    (servers : String → Request → ApiResponse) (server : Request → ApiResponse)
    (ak rg sd ed region : String) (rest : List String)
    (fuel offset : Nat) (acc : List RawRecord) (tr : List (Nat × Nat))
    (hfail : (server ⟨ak, rg, sd, ed, offset, 5000⟩).status ≠ 200)
    (hfirst : (servers region ⟨ak, region, sd, ed, 0, 5000⟩).status ≠ 200) :
    fetchAux server ak rg sd ed (fuel + 1) offset acc tr =
        some (.ok acc, tr ++ [(offset, acc.length)]) ∧
      fetch_eia_electricity_demand (servers region) ak region sd ed (fuel + 1) =
        some (.ok []) ∧
      ingestAll servers ak sd ed (fuel + 1) (region :: rest) =
        ingestAll servers ak sd ed (fuel + 1) rest := by
  have h1 : ∀ (sv : Request → ApiResponse) (rg0 : String) (o : Nat)
      (acc0 : List RawRecord) (tr0 : List (Nat × Nat)),
      (sv ⟨ak, rg0, sd, ed, o, 5000⟩).status ≠ 200 →
      fetchAux sv ak rg0 sd ed (fuel + 1) o acc0 tr0 =
        some (.ok acc0, tr0 ++ [(o, acc0.length)]) := by
    intro sv rg0 o acc0 tr0 hf
    simp only [fetchAux]
    rw [if_pos hf]
  have hfetch : fetch_eia_electricity_demand (servers region) ak region sd ed
      (fuel + 1) = some (.ok []) := by
    rw [fetch_eia_electricity_demand, fetchTrace,
      h1 (servers region) region 0 [] [] hfirst]
    rfl
  refine ⟨h1 server rg offset acc tr hfail, hfetch, ?_⟩
  rw [ingestAll, hfetch]
  cases hrest : ingestAll servers ak sd ed (fuel + 1) rest with
  | none => rfl
  | some x =>
    cases x with
    | error e => rfl
    | ok more => simp

/-- Witness for C2 at a concrete input: a server answering HTTP 500
everywhere. -/
theorem fetch_truncates_on_http_error_witness :
    fetchAux errorServer "key" "PJM" "2020-01-01" "2026-02-01" 3 0 [] [] =
        some (.ok [], [(0, 0)]) ∧
      fetch_eia_electricity_demand errorServer "key" "PJM" "2020-01-01"
        "2026-02-01" 3 = some (.ok []) ∧
      ingestAll (fun _ => errorServer) "key" "2020-01-01" "2026-02-01" 3
          ("PJM" :: ["CISO"]) =
        ingestAll (fun _ => errorServer) "key" "2020-01-01" "2026-02-01" 3
          ["CISO"] :=
  fetch_truncates_on_http_error (fun _ => errorServer) errorServer "key" "PJM"
    "2020-01-01" "2026-02-01" "PJM" ["CISO"] 2 0 [] [] (by decide) (by decide)

/-- C3, counterexample: the claim as stated is false.  A page whose decoded
payload has `response.data` but no usable `response.total` makes
`int(json_data["response"]["total"])` raise, and the exception escapes the
fetch and aborts the run before the second region is fetched; a malformed
JSON body likewise raises out of `response.json()`.  Neither error is
absorbed locally. -/
theorem run_fails_on_decode_errors :
    ingestAll (fun _ => missingTotalServer) "key" "2020-01-01" "2026-02-01" 3
        ["PJM", "CISO"] = some (.error .totalError) ∧
      ingestAll (fun _ => badJsonServer) "key" "2020-01-01" "2026-02-01" 3
        ["PJM", "CISO"] = some (.error .jsonDecodeError) :=
  ⟨rfl, rfl⟩

/-- C3, amended: only a payload lacking the `response`/`data` container is
absorbed — the fetch returns what accumulated so far and the run continues
with the next entity — while a malformed JSON body raises `jsonDecodeError`
and a payload carrying data but no usable total raises `totalError`, both
escaping the fetch as run failures. -/
theorem shape_miss_truncates_but_decode_errors_raise
    (servers : String → Request → ApiResponse)
    (serverA serverC serverD : Request → ApiResponse)
    (ak rg sd ed region : String) (rest : List String)
    (dataD : List RawRecord)
    (fuel offset : Nat) (acc : List RawRecord) (tr : List (Nat × Nat))
    (hA : (serverA ⟨ak, rg, sd, ed, offset, 5000⟩).status = 200 ∧
      (serverA ⟨ak, rg, sd, ed, offset, 5000⟩).body = .missingContainer)
    (hB : (servers region ⟨ak, region, sd, ed, 0, 5000⟩).status = 200 ∧
      (servers region ⟨ak, region, sd, ed, 0, 5000⟩).body = .missingContainer)
    (hC : (serverC ⟨ak, rg, sd, ed, offset, 5000⟩).status = 200 ∧
      (serverC ⟨ak, rg, sd, ed, offset, 5000⟩).body = .notJson)
    (hD : (serverD ⟨ak, rg, sd, ed, offset, 5000⟩).status = 200 ∧
      (serverD ⟨ak, rg, sd, ed, offset, 5000⟩).body = .wellFormed dataD none) :
    fetchAux serverA ak rg sd ed (fuel + 1) offset acc tr =
        some (.ok acc, tr ++ [(offset, acc.length)]) ∧
      ingestAll servers ak sd ed (fuel + 1) (region :: rest) =
        ingestAll servers ak sd ed (fuel + 1) rest ∧
      fetchAux serverC ak rg sd ed (fuel + 1) offset acc tr =
        some (.raised .jsonDecodeError, tr ++ [(offset, acc.length)]) ∧
      fetchAux serverD ak rg sd ed (fuel + 1) offset acc tr =
        some (.raised .totalError, tr ++ [(offset, acc.length)]) := by
  have hstep : ∀ (sv : Request → ApiResponse) (rg0 : String) (o : Nat)
      (acc0 : List RawRecord) (tr0 : List (Nat × Nat)),
      (sv ⟨ak, rg0, sd, ed, o, 5000⟩).status = 200 →
      (sv ⟨ak, rg0, sd, ed, o, 5000⟩).body = .missingContainer →
      fetchAux sv ak rg0 sd ed (fuel + 1) o acc0 tr0 =
        some (.ok acc0, tr0 ++ [(o, acc0.length)]) := by
    intro sv rg0 o acc0 tr0 hs hb
    simp only [fetchAux, hb]
    rw [if_neg (by simp [hs])]
  have hfetch : fetch_eia_electricity_demand (servers region) ak region sd ed
      (fuel + 1) = some (.ok []) := by
    rw [fetch_eia_electricity_demand, fetchTrace,
      hstep (servers region) region 0 [] [] hB.1 hB.2]
    rfl
  refine ⟨hstep serverA rg offset acc tr hA.1 hA.2, ?_, ?_, ?_⟩
  · rw [ingestAll, hfetch]
    cases hrest : ingestAll servers ak sd ed (fuel + 1) rest with
    | none => rfl
    | some x =>
      cases x with
      | error e => rfl
      | ok more => simp
  · simp only [fetchAux, hC.2]
    rw [if_neg (by simp [hC.1])]
  · simp only [fetchAux, hD.2]
    rw [if_neg (by simp [hD.1])]

/-- Witness for the amended C3 at concrete inputs: a data-container-less
server truncates and the run goes on; a non-JSON server and a total-less
server raise. -/
theorem shape_miss_truncates_but_decode_errors_raise_witness :
    fetchAux noDataServer "key" "PJM" "2020-01-01" "2026-02-01" 3 0 [] [] =
        some (.ok [], [(0, 0)]) ∧
      ingestAll (fun _ => noDataServer) "key" "2020-01-01" "2026-02-01" 3
          ("PJM" :: ["CISO"]) =
        ingestAll (fun _ => noDataServer) "key" "2020-01-01" "2026-02-01" 3
          ["CISO"] ∧
      fetchAux badJsonServer "key" "PJM" "2020-01-01" "2026-02-01" 3 0 [] [] =
        some (.raised .jsonDecodeError, [(0, 0)]) ∧
      fetchAux missingTotalServer "key" "PJM" "2020-01-01" "2026-02-01" 3
        0 [] [] = some (.raised .totalError, [(0, 0)]) :=
  shape_miss_truncates_but_decode_errors_raise (fun _ => noDataServer)
    noDataServer badJsonServer missingTotalServer "key" "PJM" "2020-01-01"
    "2026-02-01" "PJM" ["CISO"] [sampleRecord] 2 0 [] []
    ⟨rfl, rfl⟩ ⟨rfl, rfl⟩ ⟨rfl, rfl⟩ ⟨rfl, rfl⟩

/-- C4: the normalizer maps a record with period "20240115" and value
"12345.6" to date 2024-01-15 and demand 12345.6 (= 61728/5 as an exact
rational); period "2024-01-15" yields the same date; value "N/A" yields a
null demand — in all cases a `NormalizedRecord` is produced, nothing is
raised (the mapping is a total Lean function). -/
theorem normalizer_round_trip_examples :
    (normalizeRecord 0 (mkRecord "20240115" "12345.6")).date =
        some ⟨2024, 1, 15⟩ ∧
      (normalizeRecord 0 (mkRecord "20240115" "12345.6")).demand_mwh =
        some (.finite (61728 / 5)) ∧
      (normalizeRecord 0 (mkRecord "2024-01-15" "12345.6")).date =
        some ⟨2024, 1, 15⟩ ∧
      (normalizeRecord 0 (mkRecord "20240115" "N/A")).demand_mwh = none := by
  refine ⟨by decide, ?_, by decide, ?_⟩
  · show parseDouble "12345.6" = some (.finite (61728 / 5))
    simp [parseDouble, javaParseDouble, trimChars, isJavaSpace, parseSign,
      parseDecimal, parseMantissa, parseExp, parseTail, mantissaVal,
      digitsToNat, digitVal]
    norm_num
  · show parseDouble "N/A" = none
    decide

/-- C5: the output demand value is null exactly when the value string is not
parseable by the double cast — characterised by the independent grammar
`NumericShape` covering decimal literals, Java special literals (`NaN`,
`Infinity` with optional sign), hexadecimal floating literals and the
case-insensitive Spark special literals, all after trimming code points up
to U+0020 — and whenever the cast parses the string to a value `v` (a
finite rational, an infinity or NaN), the output demand is `some v`; the
parse never raises. -/
theorem demand_null_iff_nonnumeric (ts : Nat) (r : RawRecord) :
    ((normalizeRecord ts r).demand_mwh = none ↔ ¬ NumericShape r.value) ∧
      ∀ v : DoubleVal, parseDouble r.value = some v →
        (normalizeRecord ts r).demand_mwh = some v := by
  constructor
  · rw [show (normalizeRecord ts r).demand_mwh = parseDouble r.value from rfl,
      ← parseDouble_isSome_iff]
    cases parseDouble r.value <;> simp
  · intro v hv
    simpa [normalizeRecord] using hv

/-- Witness for C5 at a concrete input: value "7.5" parses to the finite
15/2 and lands unchanged in the output record. -/
theorem demand_null_iff_nonnumeric_witness :
    (normalizeRecord 0 (mkRecord "20240115" "7.5")).demand_mwh =
      some (.finite (15 / 2)) :=
  (demand_null_iff_nonnumeric 0 (mkRecord "20240115" "7.5")).2
    (.finite (15 / 2)) (by
      show parseDouble "7.5" = some (.finite (15 / 2))
      simp [parseDouble, javaParseDouble, trimChars, isJavaSpace, parseSign,
        parseDecimal, parseMantissa, parseExp, parseTail, mantissaVal,
        digitsToNat, digitVal]
      norm_num)

/-- C6: the normalizer is a pure total per-row map — exactly one output row
per input row, at the same index (hence input order is preserved, nothing is
deduplicated or sorted) — with the renames respondent→region_code,
respondent-name→region_name, type→data_type, type-name→data_type_name,
value-units→units, the shared run timestamp, and the constant source tag;
the output structure has exactly the fixed schema, so every other field is
dropped. -/
theorem normalize_pointwise (ts : Nat) (rs : List RawRecord) :
    (normalize ts rs).length = rs.length ∧
      (∀ i : Nat, (normalize ts rs)[i]? = (rs[i]?).map (normalizeRecord ts)) ∧
      ∀ r : RawRecord,
        (normalizeRecord ts r).region_code = r.respondent ∧
        (normalizeRecord ts r).region_name = r.respondent_name ∧
        (normalizeRecord ts r).data_type = r.typ ∧
        (normalizeRecord ts r).data_type_name = r.type_name ∧
        (normalizeRecord ts r).demand_mwh = parseDouble r.value ∧
        (normalizeRecord ts r).units = r.value_units ∧
        (normalizeRecord ts r).ingested_at = ts ∧
        (normalizeRecord ts r).source = "eia_api" := by
  refine ⟨by simp [normalize], fun i => ?_,
    fun r => ⟨rfl, rfl, rfl, rfl, rfl, rfl, rfl, rfl⟩⟩
  simp [normalize]

/-- C7: the fetcher is deterministic and keeps no state across calls — the
source reinitialises `params` and `all_data` inside each call and reads
nothing that survives a call, which the embedding reflects by `fetchTrace`
being a pure function of (server, query, fuel); two successive calls with
identical inputs against an unchanged server yield identical outputs. -/
theorem fetch_deterministic (server : Request → ApiResponse)
    (ak rg sd ed : String) (fuel : Nat) :
    (fetchTwice server ak rg sd ed fuel).1 =
        (fetchTwice server ak rg sd ed fuel).2 ∧
      fetchTrace server ak rg sd ed fuel = fetchTrace server ak rg sd ed fuel :=
  ⟨rfl, rfl⟩

/-- C8: with exactly 5001 matching records served in full pages of 5000, the
fetcher issues exactly 2 requests (offsets 0 and 5000 — the trace has length
2), the accumulated records are exactly all 5001 = total records of the server,
and the page boundary neither drops nor duplicates anything: the output list
is the record list of the server itself. -/
theorem two_page_boundary_run (ak rg sd ed : String) (fuel : Nat) :
    fetchTrace (sliceServer recs5001) ak rg sd ed (fuel + 2) =
        some (.ok recs5001, [(0, 0), (5000, 5000)]) ∧
      recs5001.length = 5001 ∧
      ([(0, 0), (5000, 5000)] : List (Nat × Nat)).length = 2 := by
  have hlen : recs5001.length = 5001 := by
    simp [recs5001]
  refine ⟨?_, hlen, rfl⟩
  have h := sliceServer_run recs5001 ak rg sd ed (fuel + 2) 0 [] (Or.inl rfl)
    (by rw [hlen]; omega)
  rw [List.take_zero] at h
  rw [fetchTrace, h, hlen]
  norm_num
  simp [List.range_succ]

/-- C9, counterexample: the claim "the offset sent in the next request equals
the records accumulated so far" is false — with a first page of 3 records
and a reported total of 10, the second request carries offset 5000 while
only 3 records have accumulated (`params["offset"] += 5000` advances by the
page size, not by the count received). -/
theorem offset_not_accumulated_count :
    fetchTrace shortPageServer "key" "PJM" "2020-01-01" "2026-02-01" 5 =
        some (.ok [mkRecord "20240101" "1", mkRecord "20240102" "2",
          mkRecord "20240103" "3"], [(0, 0), (5000, 3)]) ∧
      (5000 : Nat) ≠ 3 :=
  ⟨by decide, by decide⟩

/-- C9, amended: throughout a fetch, the offset sent with the i-th request is
5000·i — the running count of pages times the page size, not of records —
and it coincides with the accumulated record count precisely in the
full-page regime: against any slice server (every page full until the last)
the (offset, accumulated-before) pair of each request has equal components. -/
theorem offset_is_page_size_times_pages :
    (∀ (server : Request → ApiResponse) (ak rg sd ed : String) (fuel : Nat)
      (res : FetchResult) (tr : List (Nat × Nat)),
      fetchTrace server ak rg sd ed fuel = some (res, tr) →
      ∀ i : Nat, i < tr.length → (tr[i]?).map Prod.fst = some (5000 * i)) ∧
    (∀ (recs : List RawRecord) (ak rg sd ed : String) (fuel : Nat)
      (res : FetchResult) (tr : List (Nat × Nat)),
      fetchTrace (sliceServer recs) ak rg sd ed fuel = some (res, tr) →
      ∀ e ∈ tr, e.1 = e.2) := by
  constructor
  · intro server ak rg sd ed fuel res tr h i hi
    have h2 := fetchAux_offsets server ak rg sd ed fuel 0 [] [] (res, tr) h i
      (by simp) hi
    simpa using h2
  · intro recs ak rg sd ed fuel res tr h e he
    rw [fetchTrace] at h
    by_cases hf : (recs.length - 0 - 1) / 5000 + 1 ≤ fuel
    · have hrun := sliceServer_run recs ak rg sd ed fuel 0 [] (Or.inl rfl) hf
      rw [List.take_zero] at hrun
      rw [hrun] at h
      have htr : tr = (List.range ((recs.length - 0 - 1) / 5000 + 1)).map
          (fun j => (0 + 5000 * j, 0 + 5000 * j)) := by
        have h2 := congrArg Prod.snd (Option.some.inj h)
        simpa using h2.symm
      rw [htr] at he
      simp only [List.mem_map] at he
      obtain ⟨j, -, rfl⟩ := he
      rfl
    · have hnone := sliceServer_run_none recs ak rg sd ed fuel 0 []
        (Or.inl rfl) (by omega)
      rw [List.take_zero] at hnone
      rw [hnone] at h
      simp at h

/-- Witness for the amended C9 at a concrete input: the one-page slice run
over a single record requests offset 0 with 0 records accumulated. -/
theorem offset_is_page_size_times_pages_witness :
    (([((0 : Nat), (0 : Nat))] : List (Nat × Nat))[0]?).map Prod.fst =
        some (5000 * 0) ∧
      ∀ e ∈ ([((0 : Nat), (0 : Nat))] : List (Nat × Nat)), e.1 = e.2 :=
  ⟨offset_is_page_size_times_pages.1 (sliceServer [sampleRecord]) "key" "PJM"
      "2020-01-01" "2026-02-01" 1 (.ok [sampleRecord]) [(0, 0)] (by decide)
      0 (by decide),
    fun e he => offset_is_page_size_times_pages.2 [sampleRecord] "key" "PJM"
      "2020-01-01" "2026-02-01" 1 (.ok [sampleRecord]) [(0, 0)] (by decide)
      e he⟩

/-- C10: if the first page is well-formed and reports a total not exceeding
the number of records it carries (for instance total 0 with an empty data
array), the loop stops after exactly one request — the trace is `[(0, 0)]` —
and returns exactly the records of that page. -/
theorem single_page_when_total_reached
    (server : Request → ApiResponse) (ak rg sd ed : String)
    (data : List RawRecord) (t : Int) (fuel : Nat)
    (hresp : server ⟨ak, rg, sd, ed, 0, 5000⟩ = ⟨200, .wellFormed data (some t)⟩)
    (ht : t ≤ (data.length : Int)) :
    fetchTrace server ak rg sd ed (fuel + 1) = some (.ok data, [(0, 0)]) := by
  rw [fetchTrace]
  simp only [fetchAux, hresp]
  norm_num
  intro hlt
  exfalso
  omega

/-- Witness for C10 at a concrete input: an empty first page with total 0 —
one request, empty result. -/
theorem single_page_when_total_reached_witness :
    fetchTrace (fun _ => ⟨200, .wellFormed [] (some 0)⟩) "key" "PJM"
        "2020-01-01" "2026-02-01" 1 = some (.ok [], [(0, 0)]) :=
  single_page_when_total_reached (fun _ => ⟨200, .wellFormed [] (some 0)⟩)
    "key" "PJM" "2020-01-01" "2026-02-01" [] 0 0 rfl (by norm_num)

end EIA
